import Mathlib

/-!
Verification development for the hierarchy-acquisition subsystem of an
Android device inspection server (`uiauto_dev/driver/android.py`).

The Python source is shallowly embedded:
* the strategy fallback engine (`AndroidDriver._dump_hierarchy_raw`) becomes a
  pure function over an abstract strategy list plus an outcome oracle giving
  each strategy's behaviour on the current request;
* `shell` and `screenshot` become pure functions of an oracle describing the
  device exchange;
* `parse_xml_element` (including its inline bounds normalisation) becomes a
  recursive function on an XML element tree, with Python exceptions
  (`AssertionError`, `ZeroDivisionError`) modelled by `Except`;
* Python `float` arithmetic is modelled by exact rationals (`Rat`), with
  `round(x, 4)` modelled as exact round-half-to-even at 4 decimal digits;
* the mutable-default-argument semantics of `parse_xml_element`'s `indexes`
  parameter is modelled by an explicit store of list cells, so that absence of
  mutation of the default cell is a provable statement.
-/

namespace UiautoDev

/-- `WindowSize` from `uiauto_dev.model`: pixel dimensions of the display. -/
structure WindowSize where
  width : Nat
  height : Nat
deriving DecidableEq, Repr

/-- `ShellResponse` from `uiauto_dev.model`. -/
structure ShellResponse where
  output : String
  error : Option String
deriving DecidableEq, Repr

/-! ## Strategy fallback engine (`AndroidDriver._dump_hierarchy_raw`) -/

/-- The closed set of exception types caught by `_dump_hierarchy_raw`
(`requests.RequestException`, `AndroidDriverException`, `UDTError`,
`adbutils.AdbError`, `socket.timeout`) — the recoverable error kinds. -/
inductive DumpError where
  | requestException
  | androidDriverException
  | udtError
  | adbError
  | socketTimeout
deriving DecidableEq, Repr

/-- Result of one `_dump_hierarchy_raw` call: either a payload together with
the strategy list as reordered by promotion, or the terminal failure
(`AndroidDriverException("Failed to dump hierarchy")`, the spec's
`AllStrategiesFailedError`) together with the — untouched — strategy list. -/
inductive DumpOutcome (α : Type) where
  | ok (payload : String) (newList : List α)
  | allFailed (finalList : List α)
deriving DecidableEq, Repr

/-- The `for dump_func in self._try_dump_list[:]` loop. `live` is the live
`self._try_dump_list`; the recursion walks the snapshot copy. On success the
strategy is removed from the live list and re-inserted at index 0
(`remove`/`insert(0, ·)`); on a recoverable error the loop continues without
touching the live list. -/
def dumpLoop [DecidableEq α] (outcome : α → Except DumpError String)
    (live : List α) : List α → DumpOutcome α
  | [] => .allFailed live
  | s :: rest =>
    match outcome s with
    | .ok payload => .ok payload (s :: live.erase s)
    | .error _ => dumpLoop outcome live rest

/-- `AndroidDriver._dump_hierarchy_raw`: iterate the snapshot of the current
strategy list. -/
def dump_hierarchy_raw [DecidableEq α] (outcome : α → Except DumpError String)
    (strategies : List α) : DumpOutcome α :=
  dumpLoop outcome strategies strategies

/-! ## `AndroidDriver.shell` -/

/-- Result of `adbutils` `shell2`: exit code and captured output. -/
structure Shell2Result where
  returncode : Int
  output : String
deriving DecidableEq, Repr

/-- The device exchange underlying one `shell` call: either a
`Shell2Result`, or an exception (any `Exception`, carrying its message). -/
abbrev ShellExchange : Type := Except String Shell2Result

/-- `AndroidDriver.shell`: classify the exchange outcome into a
`ShellResponse`; exceptions are folded into the response, never re-raised. -/
def shell (exchange : ShellExchange) : ShellResponse :=
  match exchange with
  | .error msg => { output := "", error := some ("adb error: " ++ msg) }
  | .ok ret =>
    if ret.returncode = 0 then
      { output := ret.output, error := none }
    else
      { output := "",
        error := some ("exit:" ++ toString ret.returncode ++ ", output:" ++ ret.output) }

/-! ## `AndroidDriver.screenshot` -/

/-- Result of one `screenshot` call over an abstract image type `α`.
`rejected` is the `ValueError("multi-display is not supported yet")` path,
taken before any device I/O; `captured` records the image returned and
whether the `udt.screenshot()` fallback was used. -/
inductive ScreenshotResult (α : Type) where
  | rejected
  | captured (img : α) (usedFallback : Bool)
deriving DecidableEq, Repr

/-- `AndroidDriver.screenshot`: `id > 0` is rejected up front; otherwise the
primary capture (`self.device.screenshot()`, whose outcome is the oracle
`primary`, failing with `adbutils.AdbError`) is attempted, converted with
`convert("RGB")` on success, and on `AdbError` the `udt.screenshot()`
fallback (oracle `fallback`) is returned. -/
def screenshot {α : Type} (primary : Except Unit α) (convertRGB : α → α)
    (fallback : α) (id : Int) : ScreenshotResult α :=
  if id > 0 then .rejected
  else
    match primary with
    | .ok img => .captured (convertRGB img) false
    | .error _ => .captured fallback true

/-! ## Bounds normalisation (inline in `parse_xml_element`, lines 186–198) -/

/-- Numeric value of a decimal digit character (`int` on a digit char). -/
def digitVal (c : Char) : Nat := c.toNat - '0'.toNat

/-- Scanner state for `re.findall(r"\d+", s)` followed by `map(int, ·)`:
walk the characters, accumulating the value of the current maximal digit run
(`some acc`) or not being inside a run (`none`). -/
def extractNatsAux : List Char → Option Nat → List Nat
  | [], none => []
  | [], some acc => [acc]
  | c :: cs, none =>
    if c.isDigit then extractNatsAux cs (some (digitVal c))
    else extractNatsAux cs none
  | c :: cs, some acc =>
    if c.isDigit then extractNatsAux cs (some (acc * 10 + digitVal c))
    else acc :: extractNatsAux cs none

/-- `list(map(int, re.findall(r"\d+", s)))`: the values of the maximal
decimal digit runs of `s`, in order. -/
def extractNats (s : String) : List Nat := extractNatsAux s.data none

/-- Round-half-to-even to the nearest integer (the rounding used by Python's
built-in `round`), on exact rationals. -/
def roundHalfEven (q : Rat) : Int :=
  if q - ⌊q⌋ < 1 / 2 then ⌊q⌋
  else if 1 / 2 < q - ⌊q⌋ then ⌊q⌋ + 1
  else if ⌊q⌋ % 2 = 0 then ⌊q⌋ else ⌊q⌋ + 1

/-- Python's `round(q, ndigits=4)`, on exact rationals. -/
def round4 (q : Rat) : Rat := (roundHalfEven (q * 10000) : Rat) / 10000

/-- Failures of the bounds-normalisation block: the `assert len(bounds) == 4`
(`AssertionError`, the spec's `MalformedGeometryError`) and division by a
zero window dimension (`ZeroDivisionError`). -/
inductive BoundsError where
  | malformedGeometry
  | zeroDivision
deriving DecidableEq, Repr

/-- Lines 186–198 of `parse_xml_element`: extract all integers from the
geometry string, require exactly four, then divide by the window dimensions
and round each quotient to 4 decimal digits. -/
def normalizeBounds (s : String) (wsize : WindowSize) :
    Except BoundsError (Rat × Rat × Rat × Rat) :=
  match extractNats s with
  | [x1, y1, x2, y2] =>
    if wsize.width = 0 ∨ wsize.height = 0 then .error .zeroDivision
    else
      .ok (round4 ((x1 : Rat) / wsize.width), round4 ((y1 : Rat) / wsize.height),
           round4 ((x2 : Rat) / wsize.width), round4 ((y2 : Rat) / wsize.height))
  | _ => .error .malformedGeometry

/-! ## The XML element tree and the parsed `Node` tree -/

/-- A well-formed XML element as produced by `ElementTree.fromstring`:
tag, attribute mapping, and the ordered list of child elements. -/
inductive XMLElement where
  | mk (tag : String) (attrib : List (String × String)) (children : List XMLElement)
deriving Repr

def XMLElement.tag : XMLElement → String
  | .mk t _ _ => t

def XMLElement.attrib : XMLElement → List (String × String)
  | .mk _ a _ => a

def XMLElement.children : XMLElement → List XMLElement
  | .mk _ _ cs => cs

/-- `Node` from `uiauto_dev.model`: the normalised hierarchy node. -/
inductive Node where
  | mk (key : String) (name : String) (bounds : Option (Rat × Rat × Rat × Rat))
      (properties : List (String × String)) (children : List Node)
deriving Repr

def Node.key : Node → String
  | .mk k _ _ _ _ => k

def Node.name : Node → String
  | .mk _ n _ _ _ => n

def Node.bounds : Node → Option (Rat × Rat × Rat × Rat)
  | .mk _ _ b _ _ => b

def Node.properties : Node → List (String × String)
  | .mk _ _ _ p _ => p

def Node.children : Node → List Node
  | .mk _ _ _ _ cs => cs

/-- `"-".join(map(str, indexes))`. -/
def dashJoin (indexes : List Nat) : String :=
  String.intercalate "-" (indexes.map Nat.repr)

mutual

/-- `parse_xml_element` (lines 177–211): build one `Node` from an element.
The node name is the tag, replaced by the `class` attribute (default
`"node"`) when the tag is `"node"`; the `bounds` attribute, when present, is
normalised (and its failures, Python exceptions, propagate); `properties` is
the dict comprehension over **all** attributes; children are parsed in
document order with the sibling index appended to the path. -/
def parse_xml_element : XMLElement → WindowSize → List Nat → Except BoundsError Node
  | .mk tag attrib children, wsize, indexes =>
    let name := if tag = "node" then (attrib.lookup "class").getD "node" else tag
    match
      (match attrib.lookup "bounds" with
       | some b => (normalizeBounds b wsize).map some
       | none => .ok none : Except BoundsError (Option (Rat × Rat × Rat × Rat))) with
    | .error e => .error e
    | .ok bds =>
      match parse_children children wsize indexes 0 with
      | .error e => .error e
      | .ok ns => .ok (.mk (dashJoin indexes) name bds attrib ns)

/-- The `for index, child in enumerate(element)` loop of `parse_xml_element`:
parse the children in order, child `i` at path `indexes ++ [i]`. -/
def parse_children : List XMLElement → WindowSize → List Nat → Nat → Except BoundsError (List Node)
  | [], _, _, _ => .ok []
  | c :: cs, wsize, indexes, i =>
    match parse_xml_element c wsize (indexes ++ [i]) with
    | .error e => .error e
    | .ok n =>
      match parse_children cs wsize indexes (i + 1) with
      | .error e => .error e
      | .ok ns => .ok (n :: ns)

end

/-- `parse_xml`: `ElementTree.fromstring` is modelled as already having
produced the structured root element of the well-formed markup; the root is
parsed at the default path `[0]`. -/
def parse_xml (root : XMLElement) (wsize : WindowSize) : Except BoundsError Node :=
  parse_xml_element root wsize [0]

/-! ## Store-passing model of `parse_xml_element`

Python's `indexes: List[int] = [0]` default argument is one shared mutable
list object, created once at function-definition time. To make statements
about (absence of) mutation of that object provable, we re-embed the parser
with Python list objects held in an explicit store of cells; `indexes` is
passed as a cell reference; `indexes + [index]` is embedded as reading the
cell and allocating a fresh cell for the concatenation — exactly the
operations the source performs (it never mutates `indexes` in place). -/

/-- A store of Python list-of-int objects: cells `0, …, next-1` are live. -/
structure Store where
  next : Nat
  mem : Nat → List Nat

/-- Allocate a fresh cell holding `l`. -/
def Store.alloc (st : Store) (l : List Nat) : Nat × Store :=
  (st.next, ⟨st.next + 1, fun i => if i = st.next then l else st.mem i⟩)

mutual

/-- Store-passing `parse_xml_element`: `idxRef` is the reference to the list
object bound to `indexes` (on a default call, the shared default cell). The
key is read from the cell when the `Node` is constructed, before the
children loop. -/
def parse_xml_elementS : XMLElement → WindowSize → Nat → Store → Except BoundsError Node × Store
  | .mk tag attrib children, wsize, idxRef, st =>
    let name := if tag = "node" then (attrib.lookup "class").getD "node" else tag
    match
      (match attrib.lookup "bounds" with
       | some b => (normalizeBounds b wsize).map some
       | none => .ok none : Except BoundsError (Option (Rat × Rat × Rat × Rat))) with
    | .error e => (.error e, st)
    | .ok bds =>
      let key := dashJoin (st.mem idxRef)
      match parse_childrenS children wsize idxRef 0 st with
      | (.error e, st1) => (.error e, st1)
      | (.ok ns, st1) => (.ok (.mk key name bds attrib ns), st1)

/-- Store-passing children loop: each iteration evaluates `indexes + [index]`
— read the parent cell, allocate a fresh cell for the concatenation — and
recurses with the fresh reference. -/
def parse_childrenS : List XMLElement → WindowSize → Nat → Nat → Store → Except BoundsError (List Node) × Store
  | [], _, _, _, st => (.ok [], st)
  | c :: cs, wsize, idxRef, i, st =>
    match st.alloc (st.mem idxRef ++ [i]) with
    | (r, st1) =>
      match parse_xml_elementS c wsize r st1 with
      | (.error e, st2) => (.error e, st2)
      | (.ok n, st2) =>
        match parse_childrenS cs wsize idxRef (i + 1) st2 with
        | (.error e, st3) => (.error e, st3)
        | (.ok ns, st3) => (.ok (n :: ns), st3)

end

/-! ## Specification-side measures on element and node trees -/

mutual

/-- Number of elements of an XML tree. -/
def countElems : XMLElement → Nat
  | .mk _ _ cs => 1 + countElemsList cs

def countElemsList : List XMLElement → Nat
  | [] => 0
  | c :: cs => countElems c + countElemsList cs

end

mutual

/-- Number of nodes of a parsed tree. -/
def countNodes : Node → Nat
  | .mk _ _ _ _ cs => 1 + countNodesList cs

def countNodesList : List Node → Nat
  | [] => 0
  | n :: ns => countNodes n + countNodesList ns

end

mutual

/-- All keys of a parsed tree, in preorder. -/
def collectKeys : Node → List String
  | .mk k _ _ _ cs => k :: collectKeysList cs

def collectKeysList : List Node → List String
  | [] => []
  | n :: ns => collectKeys n ++ collectKeysList ns

end

mutual

/-- All sibling-index paths of the elements of a tree rooted at path `p`,
in preorder. -/
def allPaths : XMLElement → List Nat → List (List Nat)
  | .mk _ _ cs, p => p :: allPathsList cs p 0

def allPathsList : List XMLElement → List Nat → Nat → List (List Nat)
  | [], _, _ => []
  | c :: cs, p, i => allPaths c (p ++ [i]) ++ allPathsList cs p (i + 1)

end

mutual

/-- Specification predicate: every node of the tree rooted at path `p`
carries as `key` the dash-joined sibling-index path from the root. -/
def keysMatchPath : Node → List Nat → Bool
  | .mk k _ _ _ cs, p => (k == dashJoin p) && keysMatchPathList cs p 0

def keysMatchPathList : List Node → List Nat → Nat → Bool
  | [], _, _ => true
  | n :: ns, p, i => keysMatchPath n (p ++ [i]) && keysMatchPathList ns p (i + 1)

end

/-! ## Decimal representation helpers

`str(i)` in the source is `Nat.repr` in the embedding; the lemmas below
characterise its digit list, which is what key uniqueness and geometry-string
scanning rest on. -/

/-- The decimal digit characters of `n`, most significant first (the
canonical form of `Nat.toDigits 10 n`). -/
def natDigits (n : Nat) : List Char :=
  if n < 10 then [Nat.digitChar n] else natDigits (n / 10) ++ [Nat.digitChar (n % 10)]
termination_by n
decreasing_by
  exact Nat.div_lt_self (by omega) (by omega)

/-- Value accumulated by scanning a digit run left to right starting from
`acc` — the accumulation performed by `extractNatsAux`. -/
def valOfDigits (ds : List Char) (acc : Nat) : Nat :=
  ds.foldl (fun a c => a * 10 + digitVal c) acc

/-- Tail of `dashConcat`: each part preceded by a dash. -/
def dashTail : List (List Char) → List Char
  | [] => []
  | a :: as => '-' :: (a ++ dashTail as)

/-- Character-level join-with-dash of a list of parts (the data of
`String.intercalate "-"`). -/
def dashConcat : List (List Char) → List Char
  | [] => []
  | a :: as => a ++ dashTail as

/-- The literal geometry format `"[x1,y1][x2,y2]"` of the spec, with the four
integers printed in decimal. -/
def geometryString (x1 y1 x2 y2 : Nat) : String :=
  "[" ++ Nat.repr x1 ++ "," ++ Nat.repr y1 ++ "][" ++ Nat.repr x2 ++ "," ++ Nat.repr y2 ++ "]"

/-- Correspondence between the store-passing parser and the pure parser at
one element: the result only depends on the list value held in the `indexes`
cell, the store only grows, and previously allocated cells are untouched. -/
def ElemSpecS (w : WindowSize) (e : XMLElement) : Prop :=
  ∀ r st, r < st.next →
    (parse_xml_elementS e w r st).1 = parse_xml_element e w (st.mem r) ∧
    st.next ≤ (parse_xml_elementS e w r st).2.next ∧
    ∀ i, i < st.next → (parse_xml_elementS e w r st).2.mem i = st.mem i

/-- Rose-tree induction for `XMLElement`. -/
theorem XMLElement.strongInd {motive : XMLElement → Prop}
    (h : ∀ tag attrib children,
      (∀ c, c ∈ children → motive c) → motive (.mk tag attrib children)) :
    ∀ e, motive e
  | .mk tag attrib children =>
    h tag attrib children (fun c hc => XMLElement.strongInd h c)
termination_by e => sizeOf e
decreasing_by
  have := List.sizeOf_lt_of_mem hc
  simp only [XMLElement.mk.sizeOf_spec]
  omega

/-! ## C1, C2: strategy fallback engine -/

/-- If every strategy of the snapshot still to be tried fails, the loop ends
in the terminal failure with the live list untouched. -/
theorem dumpLoop_all_fail {α : Type} [DecidableEq α]
    (outcome : α → Except DumpError String) (live : List α) :
    ∀ rest, (∀ s ∈ rest, ∃ e, outcome s = .error e) →
      dumpLoop outcome live rest = .allFailed live := by
  intro rest h
  induction rest with
  | nil => rfl
  | cons s rest ih =>
    obtain ⟨e, he⟩ := h s (List.mem_cons_self s rest)
    simp only [dumpLoop, he]
    exact ih fun t ht => h t (List.mem_cons_of_mem s ht)

/-- C1: on a strategy list `[A, B, C]`, when `A` fails with a recoverable
error and `B` succeeds, the dump returns `B`'s payload and the list becomes
`[B, A, C]` (successful strategy promoted to the front, all others keeping
their relative order, the failing strategy changing nothing); on a
subsequent call where `B` fails and `A` succeeds, the list becomes
`[A, B, C]` again. -/
theorem dump_promotes_success_to_front {α : Type} [DecidableEq α]
    (a b c : α) (hab : a ≠ b) (hac : a ≠ c) (hbc : b ≠ c)
    (outcome₁ outcome₂ : α → Except DumpError String)
    (e₁ e₂ : DumpError) (p q : String)
    (h1a : outcome₁ a = .error e₁) (h1b : outcome₁ b = .ok p)
    (h2b : outcome₂ b = .error e₂) (h2a : outcome₂ a = .ok q) :
    dump_hierarchy_raw outcome₁ [a, b, c] = .ok p [b, a, c] ∧
    dump_hierarchy_raw outcome₂ [b, a, c] = .ok q [a, b, c] := by
  constructor
  · simp [dump_hierarchy_raw, dumpLoop, h1a, h1b, List.erase_cons, hab]
  · simp [dump_hierarchy_raw, dumpLoop, h2b, h2a, List.erase_cons, hab.symm]

/-- Witness for C1: three concrete strategies `0, 1, 2`; first call fails on
`0` (transport) and succeeds on `1`; second call fails on `1` and succeeds
on `0`. -/
theorem dump_promotes_success_to_front_witness :
    dump_hierarchy_raw (fun n => if n = 1 then .ok "B" else .error .requestException)
      [0, 1, 2] = .ok "B" [1, 0, 2] ∧
    dump_hierarchy_raw (fun n => if n = 0 then .ok "A" else .error .adbError)
      [1, 0, 2] = .ok "A" [0, 1, 2] :=
  dump_promotes_success_to_front 0 1 2 (by decide) (by decide) (by decide)
    _ _ .requestException .adbError "B" "A" rfl rfl rfl rfl

/-- C2: when every strategy fails with a recoverable error kind, the dump
request ends in the terminal all-strategies-failed error and the strategy
list after the call is exactly the list before the call. -/
theorem dump_all_fail_keeps_order {α : Type} [DecidableEq α]
    (outcome : α → Except DumpError String) (strategies : List α)
    (h : ∀ s ∈ strategies, ∃ e, outcome s = .error e) :
    dump_hierarchy_raw outcome strategies = .allFailed strategies :=
  dumpLoop_all_fail outcome strategies strategies h

/-- Witness for C2: all three concrete strategies time out. -/
theorem dump_all_fail_keeps_order_witness :
    dump_hierarchy_raw (fun _ => .error .socketTimeout) [0, 1, 2] =
      .allFailed [0, 1, 2] :=
  dump_all_fail_keeps_order _ _ (fun s _ => ⟨.socketTimeout, rfl⟩)

/-! ## C7: `shell` outcome classification -/

/-- C7: `shell` classifies every exchange outcome into a `ShellResponse` —
exit code 0 yields the captured output with no error; a non-zero exit code
yields empty output and an error string carrying the exit code and the
output; an exception yields empty output and an error string carrying the
cause. (The embedding is a total function: no outcome escapes the
classification.) -/
theorem shell_folds_all_outcomes :
    (∀ out : String, shell (.ok ⟨0, out⟩) = ⟨out, none⟩) ∧
    (∀ (rc : Int) (out : String), rc ≠ 0 →
      shell (.ok ⟨rc, out⟩) =
        ⟨"", some ("exit:" ++ toString rc ++ ", output:" ++ out)⟩) ∧
    (∀ msg : String, shell (.error msg) = ⟨"", some ("adb error: " ++ msg)⟩) := by
  refine ⟨fun out => rfl, fun rc out h => ?_, fun msg => rfl⟩
  simp [shell, h]

/-- Witness for C7: a device exchange exiting 1 with output `"oops"`, and
one exiting 0 with output `"ok"`. -/
theorem shell_folds_all_outcomes_witness :
    shell (.ok ⟨1, "oops"⟩) = ⟨"", some "exit:1, output:oops"⟩ ∧
    shell (.ok ⟨0, "ok"⟩) = ⟨"ok", none⟩ :=
  ⟨shell_folds_all_outcomes.2.1 1 "oops" (by decide),
   shell_folds_all_outcomes.1 "ok"⟩

/-! ## C6: `screenshot` display validation -/

/-- C6 counterexample: the claim says every `displayId` other than `0` is
rejected before any I/O, but the source only rejects `id > 0`: at
`displayId = -1` the primary capture runs and its image is returned. -/
theorem screenshot_negative_id_not_rejected :
    screenshot (α := Nat) (.ok 7) (fun x => x) 9 (-1) = .captured 7 false ∧
    screenshot (α := Nat) (.ok 7) (fun x => x) 9 (-1) ≠ .rejected := by
  constructor
  · rfl
  · decide

/-- C6 (amended): every `displayId` greater than `0` is rejected before any
I/O is attempted — the result does not depend on the device capture
behaviour at all — while every `displayId ≤ 0` (in particular `0`) proceeds
to capture. -/
theorem screenshot_id_validation {α : Type} (primary : Except Unit α)
    (convertRGB : α → α) (fallback : α) (id : Int) :
    (0 < id → screenshot primary convertRGB fallback id = .rejected) ∧
    (0 < id → ∀ (primary₂ : Except Unit α) (convertRGB₂ : α → α) (fallback₂ : α),
      screenshot primary convertRGB fallback id =
        screenshot primary₂ convertRGB₂ fallback₂ id) ∧
    (id ≤ 0 → screenshot primary convertRGB fallback id ≠ .rejected) := by
  refine ⟨fun h => by simp [screenshot, h], fun h p₂ c₂ f₂ => by simp [screenshot, h], fun h => ?_⟩
  have hn : ¬ (0 < id) := by omega
  cases primary with
  | ok img => simp [screenshot, hn]
  | error e => simp [screenshot, hn]

/-- Witness for C6 (amended): `displayId = 1` rejected for two different
device behaviours, `displayId = 0` capturing. -/
theorem screenshot_id_validation_witness :
    screenshot (α := Nat) (.ok 7) (fun x => x) 9 1 = .rejected ∧
    screenshot (α := Nat) (.error ()) (fun x => x) 9 1 = .rejected ∧
    screenshot (α := Nat) (.ok 7) (fun x => x) 9 0 ≠ .rejected :=
  ⟨(screenshot_id_validation (α := Nat) (.ok 7) (fun x => x) 9 1).1 (by decide),
   (screenshot_id_validation (α := Nat) (.error ()) (fun x => x) 9 1).1 (by decide),
   (screenshot_id_validation (α := Nat) (.ok 7) (fun x => x) 9 0).2.2 (by decide)⟩

/-! ## C4, C9: bounds normalisation -/

theorem roundHalfEven_nonneg {q : Rat} (h : 0 ≤ q) : 0 ≤ roundHalfEven q := by
  have hf : (0 : Int) ≤ ⌊q⌋ := Int.floor_nonneg.mpr h
  unfold roundHalfEven
  split_ifs <;> omega

theorem roundHalfEven_le_of_le {q : Rat} {N : Int} (h : q ≤ N) : roundHalfEven q ≤ N := by
  have hfl : ⌊q⌋ ≤ N := by
    have := Int.floor_le_floor h
    rwa [Int.floor_intCast] at this
  have hq : (⌊q⌋ : Rat) ≤ q := Int.floor_le q
  unfold roundHalfEven
  split_ifs with h1 h2 h3
  · exact hfl
  · by_contra hc
    have hNf : N ≤ ⌊q⌋ := by omega
    have hNf' : (N : Rat) ≤ (⌊q⌋ : Rat) := by exact_mod_cast hNf
    linarith
  · exact hfl
  · by_contra hc
    have hNf : N ≤ ⌊q⌋ := by omega
    have hNf' : (N : Rat) ≤ (⌊q⌋ : Rat) := by exact_mod_cast hNf
    have hr : q - ⌊q⌋ = 1 / 2 := le_antisymm (not_lt.mp h2) (not_lt.mp h1)
    linarith

theorem round4_nonneg {q : Rat} (h : 0 ≤ q) : 0 ≤ round4 q := by
  unfold round4
  have : (0 : Int) ≤ roundHalfEven (q * 10000) :=
    roundHalfEven_nonneg (by positivity)
  have h10 : (0 : Rat) < 10000 := by norm_num
  exact div_nonneg (by exact_mod_cast this) (le_of_lt h10)

theorem round4_le_one {q : Rat} (h : q ≤ 1) : round4 q ≤ 1 := by
  unfold round4
  have hle : q * 10000 ≤ ((10000 : Int) : Rat) := by push_cast; linarith
  have : roundHalfEven (q * 10000) ≤ 10000 := roundHalfEven_le_of_le hle
  rw [div_le_one (by norm_num : (0 : Rat) < 10000)]
  exact_mod_cast this

/-- C4 counterexample: the geometry `"[200,0][0,0]"` has exactly four
non-negative integers, the window `100 × 100` is positive, yet the first
normalised coordinate is `2`, outside `[0, 1]` — the source does not clamp
coordinates that exceed the window. -/
theorem normalizeBounds_can_exceed_one :
    normalizeBounds "[200,0][0,0]" ⟨100, 100⟩ = .ok (2, 0, 0, 0) ∧
    ¬ ((2 : Rat) ≤ 1) := by
  constructor
  · have hx : extractNats "[200,0][0,0]" = [200, 0, 0, 0] := by decide
    simp only [normalizeBounds, hx]
    norm_num [round4, roundHalfEven]
  · norm_num

/-- C4 (amended): if the four integers extracted from the geometry string
are bounded by the corresponding window dimensions (x-coordinates by the
width, y-coordinates by the height) and the window is positive, then every
normalised output coordinate lies in `[0, 1]`. -/
theorem normalizeBounds_unit_interval (s : String) (w h x1 y1 x2 y2 : Nat)
    (hx : extractNats s = [x1, y1, x2, y2])
    (hw : 0 < w) (hh : 0 < h)
    (h1 : x1 ≤ w) (h2 : y1 ≤ h) (h3 : x2 ≤ w) (h4 : y2 ≤ h) :
    normalizeBounds s ⟨w, h⟩ =
      .ok (round4 ((x1 : Rat) / w), round4 ((y1 : Rat) / h),
           round4 ((x2 : Rat) / w), round4 ((y2 : Rat) / h)) ∧
    (0 ≤ round4 ((x1 : Rat) / w) ∧ round4 ((x1 : Rat) / w) ≤ 1) ∧
    (0 ≤ round4 ((y1 : Rat) / h) ∧ round4 ((y1 : Rat) / h) ≤ 1) ∧
    (0 ≤ round4 ((x2 : Rat) / w) ∧ round4 ((x2 : Rat) / w) ≤ 1) ∧
    (0 ≤ round4 ((y2 : Rat) / h) ∧ round4 ((y2 : Rat) / h) ≤ 1) := by
  have key : ∀ x n : Nat, x ≤ n → 0 < n →
      0 ≤ round4 ((x : Rat) / n) ∧ round4 ((x : Rat) / n) ≤ 1 := by
    intro x n hxn hn
    have hnp : (0 : Rat) < n := by exact_mod_cast hn
    have hdiv0 : (0 : Rat) ≤ (x : Rat) / n := div_nonneg (by positivity) (le_of_lt hnp)
    have hdiv1 : (x : Rat) / n ≤ 1 := by
      rw [div_le_one hnp]
      exact_mod_cast hxn
    exact ⟨round4_nonneg hdiv0, round4_le_one hdiv1⟩
  have hw0 : w ≠ 0 := Nat.pos_iff_ne_zero.mp hw
  have hh0 : h ≠ 0 := Nat.pos_iff_ne_zero.mp hh
  exact ⟨by simp [normalizeBounds, hx, hw0, hh0],
    key x1 w h1 hw, key y1 h h2 hh, key x2 w h3 hw, key y2 h h4 hh⟩

/-- Witness for C4 (amended): the sample geometry `"[883,2222][1008,2265]"`
inside a `1080 × 2400` window. -/
theorem normalizeBounds_unit_interval_witness :
    normalizeBounds "[883,2222][1008,2265]" ⟨1080, 2400⟩ =
      .ok (round4 ((883 : Rat) / 1080), round4 ((2222 : Rat) / 2400),
           round4 ((1008 : Rat) / 1080), round4 ((2265 : Rat) / 2400)) ∧
    (0 ≤ round4 ((883 : Rat) / 1080) ∧ round4 ((883 : Rat) / 1080) ≤ 1) ∧
    (0 ≤ round4 ((2222 : Rat) / 2400) ∧ round4 ((2222 : Rat) / 2400) ≤ 1) ∧
    (0 ≤ round4 ((1008 : Rat) / 1080) ∧ round4 ((1008 : Rat) / 1080) ≤ 1) ∧
    (0 ≤ round4 ((2265 : Rat) / 2400) ∧ round4 ((2265 : Rat) / 2400) ≤ 1) := by
  have h := normalizeBounds_unit_interval "[883,2222][1008,2265]" 1080 2400
    883 2222 1008 2265 (by decide) (by decide) (by decide)
    (by decide) (by decide) (by decide) (by decide)
  exact_mod_cast h

/-- C9: when the number of integers extracted from the geometry string is
not four, bounds normalisation fails with the malformed-geometry error
(`assert len(bounds) == 4`) rather than returning a value; when exactly
four are extracted but the window has a zero dimension, it fails with the
division-by-zero input-validation error rather than producing silent
zeroes. -/
theorem normalizeBounds_failure (s : String) (wsize : WindowSize) :
    ((extractNats s).length ≠ 4 → normalizeBounds s wsize = .error .malformedGeometry) ∧
    ((extractNats s).length = 4 → wsize.width = 0 ∨ wsize.height = 0 →
      normalizeBounds s wsize = .error .zeroDivision) := by
  constructor
  · intro h
    rcases hx : extractNats s with _ | ⟨a, _ | ⟨b, _ | ⟨c, _ | ⟨d, _ | ⟨e, l⟩⟩⟩⟩⟩ <;>
      simp_all [normalizeBounds]
  · intro h4 hzero
    rcases hx : extractNats s with _ | ⟨a, _ | ⟨b, _ | ⟨c, _ | ⟨d, _ | ⟨e, l⟩⟩⟩⟩⟩ <;>
      simp_all [normalizeBounds]

/-- Witness for C9: `"[1,2][3]"` extracts three integers and is rejected as
malformed; `"[1,2][3,4]"` against a zero-width window fails the
division-by-zero validation. -/
theorem normalizeBounds_failure_witness :
    normalizeBounds "[1,2][3]" ⟨5, 5⟩ = .error .malformedGeometry ∧
    normalizeBounds "[1,2][3,4]" ⟨0, 5⟩ = .error .zeroDivision :=
  ⟨(normalizeBounds_failure "[1,2][3]" ⟨5, 5⟩).1 (by decide),
   (normalizeBounds_failure "[1,2][3,4]" ⟨0, 5⟩).2 (by decide) (Or.inl rfl)⟩

/-! ## C5: properties mapping -/

/-- C5 counterexample: the claim says `properties` holds every attribute
except `bounds` and has no entry for `bounds`; but the source copies the
whole attribute dict (`{key: element.attrib[key] for key in element.attrib}`),
so a parsed element with a `bounds` attribute has a `bounds` entry in its
`properties`. -/
theorem parse_copies_bounds_into_properties :
    (parse_xml_element (.mk "node" [("bounds", "[0,0][5,5]"), ("class", "C")] [])
        ⟨10, 10⟩ [0]).map (fun n => n.properties.lookup "bounds") =
      .ok (some "[0,0][5,5]") := rfl

/-- C5 (amended): the `properties` mapping of a parsed element is its XML
attribute mapping verbatim — every attribute, same key, same string value,
**including** `bounds` when present. -/
theorem parse_properties_verbatim (e : XMLElement) (wsize : WindowSize)
    (p : List Nat) (t : Node) (h : parse_xml_element e wsize p = .ok t) :
    t.properties = e.attrib := by
  obtain ⟨tag, attrib, children⟩ := e
  simp only [parse_xml_element] at h
  split at h
  · exact absurd h (by simp)
  · split at h
    · exact absurd h (by simp)
    · cases h
      rfl

/-- Witness for C5 (amended): a parsed element with one attribute. -/
theorem parse_properties_verbatim_witness :
    (Node.mk "0" "x" none [("a", "1")] []).properties = [("a", "1")] :=
  parse_properties_verbatim (.mk "x" [("a", "1")] []) ⟨1, 1⟩ [0] _ rfl

/-! ## C10: determinism and non-mutation of the default path argument -/

theorem Store.alloc_snd_next (st : Store) (l : List Nat) :
    (st.alloc l).2.next = st.next + 1 := rfl

theorem Store.alloc_snd_mem_lt (st : Store) (l : List Nat) {i : Nat}
    (h : i < st.next) : (st.alloc l).2.mem i = st.mem i := by
  simp only [Store.alloc]
  exact if_neg (by omega)

theorem Store.alloc_snd_mem_self (st : Store) (l : List Nat) :
    (st.alloc l).2.mem (st.alloc l).1 = l := by
  simp [Store.alloc]

/-- Store-passing children loop refines the pure children loop, provided the
parent's `indexes` cell is live: same result, monotone store, and all
previously live cells untouched. -/
theorem parse_childrenS_spec (w : WindowSize) :
    ∀ (cs : List XMLElement), (∀ c ∈ cs, ElemSpecS w c) →
      ∀ r i st, r < st.next →
        (parse_childrenS cs w r i st).1 = parse_children cs w (st.mem r) i ∧
        st.next ≤ (parse_childrenS cs w r i st).2.next ∧
        ∀ j, j < st.next → (parse_childrenS cs w r i st).2.mem j = st.mem j := by
  intro cs
  induction cs with
  | nil => exact fun _ r i st _ => ⟨rfl, le_refl _, fun j _ => rfl⟩
  | cons c cs ih =>
    intro hcs r i st hr
    have hc := hcs c (List.mem_cons_self c cs)
    have hcs' : ∀ x ∈ cs, ElemSpecS w x := fun x hx => hcs x (List.mem_cons_of_mem c hx)
    -- the freshly allocated cell for `indexes + [i]`
    have hr1 : (st.alloc (st.mem r ++ [i])).1 < (st.alloc (st.mem r ++ [i])).2.next := by
      rw [Store.alloc_snd_next]
      exact Nat.lt_succ_of_le (le_of_eq rfl)
    obtain ⟨he1, hn1, hf1⟩ :=
      hc (st.alloc (st.mem r ++ [i])).1 (st.alloc (st.mem r ++ [i])).2 hr1
    rw [Store.alloc_snd_mem_self] at he1
    have hnext1 : st.next < (st.alloc (st.mem r ++ [i])).2.next := by
      rw [Store.alloc_snd_next]; omega
    -- name the intermediate store after the recursive element call
    set st2 := (parse_xml_elementS c w (st.alloc (st.mem r ++ [i])).1
      (st.alloc (st.mem r ++ [i])).2).2 with hst2
    have hn2 : st.next ≤ st2.next := le_of_lt (lt_of_lt_of_le hnext1 hn1)
    have hf2 : ∀ j, j < st.next → st2.mem j = st.mem j := by
      intro j hj
      rw [hf1 j (lt_trans hj hnext1), Store.alloc_snd_mem_lt st _ hj]
    have hr2 : r < st2.next := lt_of_lt_of_le hr hn2
    obtain ⟨he3, hn3, hf3⟩ := ih hcs' r (i + 1) st2 hr2
    rw [hf2 r hr] at he3
    -- unfold one step of both loops and case on the element result
    simp only [parse_childrenS, parse_children]
    cases hpe : parse_xml_element c w (st.mem r ++ [i]) with
    | error e =>
      rw [hpe] at he1
      rcases hps : parse_xml_elementS c w (st.alloc (st.mem r ++ [i])).1
          (st.alloc (st.mem r ++ [i])).2 with ⟨pr, pst⟩
      rw [hps] at he1
      simp only at he1
      subst he1
      simp only [hps]
      have hpst : pst = st2 := by rw [hst2, hps]
      refine ⟨?_, ?_, ?_⟩
      · simp
      · rw [hpst]; exact hn2
      · intro j hj
        rw [hpst]; exact hf2 j hj
    | ok n =>
      rw [hpe] at he1
      rcases hps : parse_xml_elementS c w (st.alloc (st.mem r ++ [i])).1
          (st.alloc (st.mem r ++ [i])).2 with ⟨pr, pst⟩
      rw [hps] at he1
      simp only at he1
      subst he1
      have hpst : pst = st2 := by rw [hst2, hps]
      subst hpst
      simp only [hps]
      cases hrec : parse_childrenS cs w r (i + 1) st2 with
      | mk recr recst =>
        rw [hrec] at he3 hn3 hf3
        simp only at he3 hn3 hf3
        cases hpc : parse_children cs w (st.mem r) (i + 1) with
        | error e2 =>
          rw [hpc] at he3
          subst he3
          exact ⟨rfl, le_trans hn2 hn3, fun j hj => by
            rw [hf3 j (lt_of_lt_of_le hj hn2), hf2 j hj]⟩
        | ok ns =>
          rw [hpc] at he3
          subst he3
          exact ⟨rfl, le_trans hn2 hn3, fun j hj => by
            rw [hf3 j (lt_of_lt_of_le hj hn2), hf2 j hj]⟩

/-- Store-passing parser refines the pure parser at every element. -/
theorem parse_xml_elementS_spec (w : WindowSize) : ∀ e, ElemSpecS w e := by
  intro e
  induction e using XMLElement.strongInd with
  | _ tag attrib children ih =>
    intro r st hr
    obtain ⟨hce, hcn, hcf⟩ := parse_childrenS_spec w children ih r 0 st hr
    simp only [parse_xml_elementS, parse_xml_element]
    cases hb : (match attrib.lookup "bounds" with
      | some b => (normalizeBounds b w).map some
      | none => .ok none : Except BoundsError (Option (Rat × Rat × Rat × Rat))) with
    | error e => exact ⟨rfl, le_refl _, fun j _ => rfl⟩
    | ok bds =>
      cases hcs : parse_childrenS children w r 0 st with
      | mk cr cst =>
        rw [hcs] at hce hcn hcf
        simp only at hce hcn hcf
        cases hcp : parse_children children w (st.mem r) 0 with
        | error e2 =>
          rw [hcp] at hce
          subst hce
          exact ⟨rfl, hcn, hcf⟩
        | ok ns =>
          rw [hcp] at hce
          subst hce
          exact ⟨rfl, hcn, hcf⟩

/-- C10: parsing is deterministic and free of hidden shared state — with the
mutable default `indexes` list modelled as a store cell, a dump call leaves
the default cell `[0]` unchanged (paths are built only by `+`-concatenation,
which allocates fresh cells), the call's result coincides with the pure
parse, and an immediately repeated call on the resulting store returns a
structurally equal tree. -/
theorem parse_xml_deterministic (e : XMLElement) (w : WindowSize) (st : Store)
    (d : Nat) (hd : d < st.next) (hcell : st.mem d = [0]) :
    ((parse_xml_elementS e w d st).2.mem d = [0]) ∧
    ((parse_xml_elementS e w d st).1 = parse_xml e w) ∧
    ((parse_xml_elementS e w d ((parse_xml_elementS e w d st).2)).1 =
      (parse_xml_elementS e w d st).1) := by
  obtain ⟨he, hn, hf⟩ := parse_xml_elementS_spec w e d st hd
  refine ⟨by rw [hf d hd, hcell], by rw [he, hcell]; rfl, ?_⟩
  obtain ⟨he2, hn2, hf2⟩ :=
    parse_xml_elementS_spec w e d (parse_xml_elementS e w d st).2
      (lt_of_lt_of_le hd hn)
  rw [he2, hf d hd, he]

/-- Witness for C10: two-element tree, store with the default cell `0`
holding `[0]`. -/
theorem parse_xml_deterministic_witness :
    ((parse_xml_elementS (.mk "a" [] [.mk "b" [] []]) ⟨1, 1⟩ 0 ⟨1, fun _ => [0]⟩).2.mem 0 = [0]) ∧
    ((parse_xml_elementS (.mk "a" [] [.mk "b" [] []]) ⟨1, 1⟩ 0 ⟨1, fun _ => [0]⟩).1 =
      parse_xml (.mk "a" [] [.mk "b" [] []]) ⟨1, 1⟩) ∧
    ((parse_xml_elementS (.mk "a" [] [.mk "b" [] []]) ⟨1, 1⟩ 0
        ((parse_xml_elementS (.mk "a" [] [.mk "b" [] []]) ⟨1, 1⟩ 0 ⟨1, fun _ => [0]⟩).2)).1 =
      (parse_xml_elementS (.mk "a" [] [.mk "b" [] []]) ⟨1, 1⟩ 0 ⟨1, fun _ => [0]⟩).1) :=
  parse_xml_deterministic (.mk "a" [] [.mk "b" [] []]) ⟨1, 1⟩ ⟨1, fun _ => [0]⟩ 0
    (by decide) rfl

/-! ## Decimal representation: `Nat.repr` digit facts -/

theorem digitChar_isDigit : ∀ m, m < 10 → (Nat.digitChar m).isDigit = true := by decide

theorem digitVal_digitChar : ∀ m, m < 10 → digitVal (Nat.digitChar m) = m := by decide

theorem natDigits_ne_nil (n : Nat) : natDigits n ≠ [] := by
  rw [natDigits]
  split <;> simp

theorem mem_natDigits_isDigit (n : Nat) : ∀ c ∈ natDigits n, c.isDigit = true := by
  induction n using Nat.strong_induction_on with
  | _ n ih =>
    intro c hc
    rw [natDigits] at hc
    split at hc
    · rw [List.mem_singleton] at hc
      subst hc
      exact digitChar_isDigit n (by assumption)
    · rcases List.mem_append.mp hc with hl | hr
      · exact ih (n / 10) (Nat.div_lt_self (by omega) (by omega)) c hl
      · rw [List.mem_singleton] at hr
        subst hr
        exact digitChar_isDigit (n % 10) (Nat.mod_lt n (by omega))

theorem dash_not_mem_natDigits (n : Nat) : '-' ∉ natDigits n := by
  intro hc
  have h := mem_natDigits_isDigit n _ hc
  exact absurd h (by decide)

theorem toDigitsCore_eq_natDigits :
    ∀ (fuel n : Nat) (ds : List Char), n < 10 ^ (fuel + 1) →
      Nat.toDigitsCore 10 (fuel + 1) n ds = natDigits n ++ ds := by
  intro fuel
  induction fuel with
  | zero =>
    intro n ds h
    have h10 : n < 10 := by simpa using h
    have hdiv : n / 10 = 0 := Nat.div_eq_of_lt h10
    simp only [Nat.toDigitsCore, hdiv, if_pos]
    rw [natDigits, if_pos h10, Nat.mod_eq_of_lt h10]
    rfl
  | succ fuel ih =>
    intro n ds h
    rw [show Nat.toDigitsCore 10 (fuel + 1 + 1) n ds =
      (if n / 10 = 0 then (n % 10).digitChar :: ds
       else Nat.toDigitsCore 10 (fuel + 1) (n / 10) ((n % 10).digitChar :: ds)) from rfl]
    by_cases hdiv : n / 10 = 0
    · have h10 : n < 10 := by omega
      rw [if_pos hdiv, natDigits, if_pos h10, Nat.mod_eq_of_lt h10]
      rfl
    · have h10 : ¬ n < 10 := fun hlt => hdiv (Nat.div_eq_of_lt hlt)
      rw [if_neg hdiv]
      have hlt : n / 10 < 10 ^ (fuel + 1) := by
        rw [Nat.div_lt_iff_lt_mul (by norm_num : 0 < 10)]
        calc n < 10 ^ (fuel + 1 + 1) := h
        _ = 10 ^ (fuel + 1) * 10 := by rw [pow_succ]
      rw [ih (n / 10) (Nat.digitChar (n % 10) :: ds) hlt]
      conv_rhs => rw [natDigits, if_neg h10]
      rw [List.append_assoc]
      rfl

theorem toDigits_eq_natDigits (n : Nat) : Nat.toDigits 10 n = natDigits n := by
  have hpow : n < 10 ^ (n + 1) := by
    calc n < 2 ^ n := Nat.lt_two_pow n
    _ ≤ 10 ^ n := Nat.pow_le_pow_left (by norm_num) n
    _ ≤ 10 ^ (n + 1) := Nat.pow_le_pow_right (by norm_num) (Nat.le_succ n)
  rw [Nat.toDigits, toDigitsCore_eq_natDigits n n [] hpow, List.append_nil]

theorem repr_data (n : Nat) : (Nat.repr n).data = natDigits n := by
  show ((Nat.toDigits 10 n).asString).data = natDigits n
  rw [toDigits_eq_natDigits]
  exact List.toList_asString (natDigits n)

theorem valOfDigits_append (l1 l2 : List Char) (acc : Nat) :
    valOfDigits (l1 ++ l2) acc = valOfDigits l2 (valOfDigits l1 acc) := by
  simp [valOfDigits, List.foldl_append]

theorem valOfDigits_natDigits (n : Nat) :
    ∀ acc, valOfDigits (natDigits n) acc = acc * 10 ^ (natDigits n).length + n := by
  induction n using Nat.strong_induction_on with
  | _ n ih =>
    intro acc
    rw [natDigits]
    split
    · simp [valOfDigits, digitVal_digitChar n (by assumption)]
    · rw [valOfDigits_append]
      have ihd := ih (n / 10) (Nat.div_lt_self (by omega) (by omega)) acc
      rw [ihd]
      have hd : valOfDigits [Nat.digitChar (n % 10)]
          (acc * 10 ^ (natDigits (n / 10)).length + n / 10) =
          (acc * 10 ^ (natDigits (n / 10)).length + n / 10) * 10 + n % 10 := by
        simp [valOfDigits, digitVal_digitChar (n % 10) (Nat.mod_lt n (by omega))]
      rw [hd]
      have hmod : 10 * (n / 10) + n % 10 = n := Nat.div_add_mod n 10
      have hlen : (natDigits (n / 10) ++ [Nat.digitChar (n % 10)]).length =
          (natDigits (n / 10)).length + 1 := by simp
      rw [hlen, pow_succ]
      calc (acc * 10 ^ (natDigits (n / 10)).length + n / 10) * 10 + n % 10
          = acc * (10 ^ (natDigits (n / 10)).length * 10) +
            (10 * (n / 10) + n % 10) := by ring
      _ = acc * (10 ^ (natDigits (n / 10)).length * 10) + n := by rw [hmod]

theorem natDigits_injective : Function.Injective natDigits := by
  intro a b h
  have ha := valOfDigits_natDigits a 0
  have hb := valOfDigits_natDigits b 0
  rw [h] at ha
  rw [ha] at hb
  simpa using hb

/-! ## Dash-joined keys: `String.intercalate "-"` and its injectivity -/

theorem intercalate_go_data (as : List String) : ∀ acc : String,
    (String.intercalate.go acc "-" as).data = acc.data ++ dashTail (as.map String.data) := by
  induction as with
  | nil => intro acc; simp [String.intercalate.go, dashTail]
  | cons a as ih =>
    intro acc
    rw [String.intercalate.go, ih (acc ++ "-" ++ a)]
    simp [dashTail]

theorem intercalate_dash_data (ss : List String) :
    (String.intercalate "-" ss).data = dashConcat (ss.map String.data) := by
  cases ss with
  | nil => rfl
  | cons a as =>
    rw [String.intercalate, intercalate_go_data]
    simp [dashConcat]

theorem dashJoin_data (l : List Nat) :
    (dashJoin l).data = dashConcat (l.map natDigits) := by
  rw [dashJoin, intercalate_dash_data, List.map_map]
  congr 1
  exact List.map_congr_left (fun n _ => repr_data n)

theorem dash_sep_cancel : ∀ (a b ra rb : List Char), '-' ∉ a → '-' ∉ b →
    a ++ '-' :: ra = b ++ '-' :: rb → a = b ∧ ra = rb := by
  intro a
  induction a with
  | nil =>
    intro b ra rb _ hb h
    cases b with
    | nil => simpa using h
    | cons c bt =>
      rw [List.nil_append, List.cons_append, List.cons_eq_cons] at h
      exact absurd (h.1 ▸ List.mem_cons_self c bt) hb
  | cons c at' ih =>
    intro b ra rb ha hb h
    cases b with
    | nil =>
      rw [List.nil_append, List.cons_append, List.cons_eq_cons] at h
      exact absurd (h.1 ▸ List.mem_cons_self c at') ha
    | cons d bt =>
      rw [List.cons_append, List.cons_append, List.cons_eq_cons] at h
      obtain ⟨hcd, htl⟩ := h
      obtain ⟨h1, h2⟩ := ih bt ra rb
        (fun hm => ha (List.mem_cons_of_mem c hm))
        (fun hm => hb (List.mem_cons_of_mem d hm)) htl
      exact ⟨by rw [hcd, h1], h2⟩

theorem dashConcat_inj : ∀ (l1 l2 : List (List Char)),
    (∀ a ∈ l1, a ≠ [] ∧ '-' ∉ a) → (∀ a ∈ l2, a ≠ [] ∧ '-' ∉ a) →
    dashConcat l1 = dashConcat l2 → l1 = l2 := by
  intro l1
  induction l1 with
  | nil =>
    intro l2 _ h2 h
    cases l2 with
    | nil => rfl
    | cons b bs =>
      exfalso
      rw [dashConcat, dashConcat] at h
      rcases List.append_eq_nil.mp h.symm with ⟨hb, _⟩
      exact (h2 b (List.mem_cons_self b bs)).1 hb
  | cons a as ih =>
    intro l2 h1 h2 h
    cases l2 with
    | nil =>
      exfalso
      rw [dashConcat, dashConcat] at h
      rcases List.append_eq_nil.mp h with ⟨ha, _⟩
      exact (h1 a (List.mem_cons_self a as)).1 ha
    | cons b bs =>
      rw [dashConcat, dashConcat] at h
      cases as with
      | nil =>
        cases bs with
        | nil =>
          simp only [dashTail, List.append_nil] at h
          rw [h]
        | cons b2 bs2 =>
          exfalso
          simp only [dashTail, List.append_nil] at h
          have hmem : '-' ∈ a := by rw [h]; simp
          exact (h1 a (List.mem_cons_self a [])).2 hmem
      | cons a2 as2 =>
        cases bs with
        | nil =>
          exfalso
          simp only [dashTail, List.append_nil] at h
          have hmem : '-' ∈ b := by rw [← h]; simp
          exact (h2 b (List.mem_cons_self b [])).2 hmem
        | cons b2 bs2 =>
          simp only [dashTail] at h
          obtain ⟨hab, htl⟩ := dash_sep_cancel a b _ _
            (h1 a (List.mem_cons_self a _)).2 (h2 b (List.mem_cons_self b _)).2 h
          have hrest := ih (b2 :: bs2)
            (fun x hx => h1 x (List.mem_cons_of_mem a hx))
            (fun x hx => h2 x (List.mem_cons_of_mem b hx))
            (by rw [dashConcat, dashConcat]; exact htl)
          rw [hab, hrest]

theorem dashJoin_injective : Function.Injective dashJoin := by
  intro l1 l2 h
  have hparts : ∀ l : List Nat, ∀ a ∈ l.map natDigits, a ≠ [] ∧ '-' ∉ a := by
    intro l a ha
    obtain ⟨n, _, rfl⟩ := List.mem_map.mp ha
    exact ⟨natDigits_ne_nil n, dash_not_mem_natDigits n⟩
  have hdata : (dashJoin l1).data = (dashJoin l2).data := by rw [h]
  rw [dashJoin_data, dashJoin_data] at hdata
  have hmap := dashConcat_inj _ _ (hparts l1) (hparts l2) hdata
  exact List.map_injective_iff.mpr natDigits_injective hmap

/-! ## C8: exact normalisation on literal geometry strings -/

theorem extractNatsAux_nondigit_none (c : Char) (cs : List Char)
    (h : c.isDigit = false) :
    extractNatsAux (c :: cs) none = extractNatsAux cs none := by
  simp [extractNatsAux, h]

theorem extractNatsAux_nondigit_some (c : Char) (cs : List Char) (acc : Nat)
    (h : c.isDigit = false) :
    extractNatsAux (c :: cs) (some acc) = acc :: extractNatsAux cs none := by
  simp [extractNatsAux, h]

theorem extractNatsAux_digits_some (ds : List Char) :
    ∀ (cs : List Char) (acc : Nat), (∀ c ∈ ds, c.isDigit = true) →
      extractNatsAux (ds ++ cs) (some acc) =
        extractNatsAux cs (some (valOfDigits ds acc)) := by
  induction ds with
  | nil => intro cs acc _; simp [valOfDigits]
  | cons d ds ih =>
    intro cs acc h
    have hd := h d (List.mem_cons_self d ds)
    simp only [List.cons_append, extractNatsAux, hd, if_true, List.append_eq]
    rw [ih cs _ (fun c hc => h c (List.mem_cons_of_mem d hc))]
    simp [valOfDigits]

theorem extractNatsAux_digits_none (ds : List Char) (cs : List Char)
    (hne : ds ≠ []) (h : ∀ c ∈ ds, c.isDigit = true) :
    extractNatsAux (ds ++ cs) none = extractNatsAux cs (some (valOfDigits ds 0)) := by
  cases ds with
  | nil => exact absurd rfl hne
  | cons d ds =>
    have hd := h d (List.mem_cons_self d ds)
    simp only [List.cons_append, extractNatsAux, hd, if_true, List.append_eq]
    rw [extractNatsAux_digits_some ds cs (digitVal d)
      (fun c hc => h c (List.mem_cons_of_mem d hc))]
    simp [valOfDigits]

theorem repr_data_ne_nil (n : Nat) : (Nat.repr n).data ≠ [] := by
  rw [repr_data]
  exact natDigits_ne_nil n

theorem repr_data_digits (n : Nat) : ∀ c ∈ (Nat.repr n).data, c.isDigit = true := by
  rw [repr_data]
  exact mem_natDigits_isDigit n

theorem valOfDigits_repr (n : Nat) : valOfDigits (Nat.repr n).data 0 = n := by
  rw [repr_data]
  have h := valOfDigits_natDigits n 0
  simpa using h

/-- Scanning the literal geometry string `"[x1,y1][x2,y2]"` extracts exactly
the four printed integers, in order. -/
theorem extractNats_geometryString (x1 y1 x2 y2 : Nat) :
    extractNats (geometryString x1 y1 x2 y2) = [x1, y1, x2, y2] := by
  have hld : ("[" : String).data = ['['] := rfl
  have hcd : ("," : String).data = [','] := rfl
  have hbd : ("][" : String).data = [']', '['] := rfl
  have hrd : ("]" : String).data = [']'] := rfl
  unfold extractNats geometryString
  simp only [String.data_append, hld, hcd, hbd, hrd, List.append_assoc,
    List.cons_append, List.singleton_append, List.nil_append]
  rw [extractNatsAux_nondigit_none _ _ (by decide)]
  rw [extractNatsAux_digits_none _ _ (repr_data_ne_nil x1) (repr_data_digits x1),
    valOfDigits_repr]
  rw [extractNatsAux_nondigit_some _ _ _ (by decide)]
  rw [extractNatsAux_digits_none _ _ (repr_data_ne_nil y1) (repr_data_digits y1),
    valOfDigits_repr]
  rw [extractNatsAux_nondigit_some _ _ _ (by decide)]
  rw [extractNatsAux_nondigit_none _ _ (by decide)]
  rw [extractNatsAux_digits_none _ _ (repr_data_ne_nil x2) (repr_data_digits x2),
    valOfDigits_repr]
  rw [extractNatsAux_nondigit_some _ _ _ (by decide)]
  rw [extractNatsAux_digits_none _ _ (repr_data_ne_nil y2) (repr_data_digits y2),
    valOfDigits_repr]
  rw [extractNatsAux_nondigit_some _ _ _ (by decide)]
  rfl

/-- C8: for every geometry string of the literal form `"[x1,y1][x2,y2]"`
(four non-negative integers) and every window with positive width and
height, the bounds normaliser returns exactly
`(x1/width, y1/height, x2/width, y2/height)`, each coordinate rounded to 4
decimal digits. -/
theorem normalizeBounds_geometry_exact (x1 y1 x2 y2 w h : Nat)
    (hw : 0 < w) (hh : 0 < h) :
    normalizeBounds (geometryString x1 y1 x2 y2) ⟨w, h⟩ =
      .ok (round4 ((x1 : Rat) / w), round4 ((y1 : Rat) / h),
           round4 ((x2 : Rat) / w), round4 ((y2 : Rat) / h)) := by
  have hx := extractNats_geometryString x1 y1 x2 y2
  have hw0 : w ≠ 0 := Nat.pos_iff_ne_zero.mp hw
  have hh0 : h ≠ 0 := Nat.pos_iff_ne_zero.mp hh
  simp [normalizeBounds, hx, hw0, hh0]

/-- Witness for C8: the sample geometry from the source comment, inside a
`1080 × 2400` window. -/
theorem normalizeBounds_geometry_exact_witness :
    normalizeBounds (geometryString 883 2222 1008 2265) ⟨1080, 2400⟩ =
      .ok (round4 ((883 : Rat) / 1080), round4 ((2222 : Rat) / 2400),
           round4 ((1008 : Rat) / 1080), round4 ((2265 : Rat) / 2400)) :=
  normalizeBounds_geometry_exact 883 2222 1008 2265 1080 2400 (by decide) (by decide)

/-! ## C3: node count, key structure, key uniqueness -/

/-- Children loop preserves node count, given the count property for each
child element. -/
theorem parse_children_count (w : WindowSize) (cs : List XMLElement)
    (hcs : ∀ c ∈ cs, ∀ p t, parse_xml_element c w p = .ok t → countNodes t = countElems c) :
    ∀ p i ns, parse_children cs w p i = .ok ns → countNodesList ns = countElemsList cs := by
  induction cs with
  | nil =>
    intro p i ns h
    simp only [parse_children] at h
    cases h
    rfl
  | cons c cs ih =>
    intro p i ns h
    simp only [parse_children] at h
    cases hpe : parse_xml_element c w (p ++ [i]) with
    | error e => rw [hpe] at h; exact absurd h (by simp)
    | ok n =>
      rw [hpe] at h
      cases hpc : parse_children cs w p (i + 1) with
      | error e => rw [hpc] at h; exact absurd h (by simp)
      | ok ns2 =>
        rw [hpc] at h
        simp only at h
        cases h
        rw [countNodesList, countElemsList,
          hcs c (List.mem_cons_self c cs) (p ++ [i]) n hpe,
          ih (fun x hx => hcs x (List.mem_cons_of_mem c hx)) p (i + 1) ns2 hpc]

/-- Each successfully parsed element yields exactly one node per source
element. -/
theorem parse_count (w : WindowSize) :
    ∀ e p t, parse_xml_element e w p = .ok t → countNodes t = countElems e := by
  intro e
  induction e using XMLElement.strongInd with
  | _ tag attrib children ih =>
    intro p t h
    simp only [parse_xml_element] at h
    split at h
    · exact absurd h (by simp)
    · cases hpc : parse_children children w p 0 with
      | error e2 => rw [hpc] at h; exact absurd h (by simp)
      | ok ns =>
        rw [hpc] at h
        simp only at h
        cases h
        rw [countNodes, countElems, parse_children_count w children ih p 0 ns hpc]

/-- Children loop gives every node the dash-joined path key, given the key
property for each child element. -/
theorem parse_children_keys (w : WindowSize) (cs : List XMLElement)
    (hcs : ∀ c ∈ cs, ∀ p t, parse_xml_element c w p = .ok t → keysMatchPath t p = true) :
    ∀ p i ns, parse_children cs w p i = .ok ns → keysMatchPathList ns p i = true := by
  induction cs with
  | nil =>
    intro p i ns h
    simp only [parse_children] at h
    cases h
    rfl
  | cons c cs ih =>
    intro p i ns h
    simp only [parse_children] at h
    cases hpe : parse_xml_element c w (p ++ [i]) with
    | error e => rw [hpe] at h; exact absurd h (by simp)
    | ok n =>
      rw [hpe] at h
      cases hpc : parse_children cs w p (i + 1) with
      | error e => rw [hpc] at h; exact absurd h (by simp)
      | ok ns2 =>
        rw [hpc] at h
        simp only at h
        cases h
        rw [keysMatchPathList, hcs c (List.mem_cons_self c cs) (p ++ [i]) n hpe,
          ih (fun x hx => hcs x (List.mem_cons_of_mem c hx)) p (i + 1) ns2 hpc]
        rfl

/-- Every node of a successfully parsed element carries the dash-joined
sibling-index path as its key. -/
theorem parse_keys (w : WindowSize) :
    ∀ e p t, parse_xml_element e w p = .ok t → keysMatchPath t p = true := by
  intro e
  induction e using XMLElement.strongInd with
  | _ tag attrib children ih =>
    intro p t h
    simp only [parse_xml_element] at h
    split at h
    · exact absurd h (by simp)
    · cases hpc : parse_children children w p 0 with
      | error e2 => rw [hpc] at h; exact absurd h (by simp)
      | ok ns =>
        rw [hpc] at h
        simp only at h
        cases h
        rw [keysMatchPath, parse_children_keys w children ih p 0 ns hpc]
        simp

/-- Children loop: collected keys are the dash-joins of the sibling-index
paths, given the same property for each child element. -/
theorem parse_children_collect (w : WindowSize) (cs : List XMLElement)
    (hcs : ∀ c ∈ cs, ∀ p t, parse_xml_element c w p = .ok t →
      collectKeys t = (allPaths c p).map dashJoin) :
    ∀ p i ns, parse_children cs w p i = .ok ns →
      collectKeysList ns = (allPathsList cs p i).map dashJoin := by
  induction cs with
  | nil =>
    intro p i ns h
    simp only [parse_children] at h
    cases h
    rfl
  | cons c cs ih =>
    intro p i ns h
    simp only [parse_children] at h
    cases hpe : parse_xml_element c w (p ++ [i]) with
    | error e => rw [hpe] at h; exact absurd h (by simp)
    | ok n =>
      rw [hpe] at h
      cases hpc : parse_children cs w p (i + 1) with
      | error e => rw [hpc] at h; exact absurd h (by simp)
      | ok ns2 =>
        rw [hpc] at h
        simp only at h
        cases h
        rw [collectKeysList, allPathsList, List.map_append,
          hcs c (List.mem_cons_self c cs) (p ++ [i]) n hpe,
          ih (fun x hx => hcs x (List.mem_cons_of_mem c hx)) p (i + 1) ns2 hpc]

/-- The keys of a successfully parsed element tree are exactly the
dash-joins of its sibling-index paths, in preorder. -/
theorem parse_collect (w : WindowSize) :
    ∀ e p t, parse_xml_element e w p = .ok t →
      collectKeys t = (allPaths e p).map dashJoin := by
  intro e
  induction e using XMLElement.strongInd with
  | _ tag attrib children ih =>
    intro p t h
    simp only [parse_xml_element] at h
    split at h
    · exact absurd h (by simp)
    · cases hpc : parse_children children w p 0 with
      | error e2 => rw [hpc] at h; exact absurd h (by simp)
      | ok ns =>
        rw [hpc] at h
        simp only at h
        cases h
        rw [collectKeys, allPaths, List.map_cons,
          parse_children_collect w children ih p 0 ns hpc]

/-- Paths of child subtrees extend the parent path by a sibling index at
least the starting index. -/
theorem allPathsList_prefix (cs : List XMLElement)
    (hcs : ∀ c ∈ cs, ∀ p q, q ∈ allPaths c p → p <+: q) :
    ∀ p i q, q ∈ allPathsList cs p i → ∃ j, i ≤ j ∧ (p ++ [j]) <+: q := by
  induction cs with
  | nil => intro p i q hq; simp [allPathsList] at hq
  | cons c cs ih =>
    intro p i q hq
    rw [allPathsList] at hq
    rcases List.mem_append.mp hq with hl | hr
    · exact ⟨i, le_refl i, hcs c (List.mem_cons_self c cs) (p ++ [i]) q hl⟩
    · obtain ⟨j, hij, hpre⟩ :=
        ih (fun x hx => hcs x (List.mem_cons_of_mem c hx)) p (i + 1) q hr
      exact ⟨j, by omega, hpre⟩

/-- The root path is a prefix of every path of the subtree. -/
theorem allPaths_prefix : ∀ (e : XMLElement) (p q : List Nat), q ∈ allPaths e p → p <+: q := by
  intro e
  induction e using XMLElement.strongInd with
  | _ tag attrib children ih =>
    intro p q hq
    rw [allPaths] at hq
    rcases List.mem_cons.mp hq with rfl | hr
    · exact List.prefix_refl q
    · obtain ⟨j, _, hpre⟩ := allPathsList_prefix children ih p 0 q hr
      exact (List.prefix_append p [j]).trans hpre

/-- Two prefixes of the same list with equal lengths are equal. -/
theorem prefix_eq_of_length {α : Type} {l₁ l₂ q : List α}
    (h1 : l₁ <+: q) (h2 : l₂ <+: q) (hlen : l₁.length = l₂.length) : l₁ = l₂ := by
  obtain ⟨r, hr⟩ := List.prefix_of_prefix_length_le h1 h2 (le_of_eq hlen)
  have hlr := congrArg List.length hr
  simp only [List.length_append] at hlr
  have : r = [] := List.eq_nil_of_length_eq_zero (by omega)
  rw [← hr, this, List.append_nil]

/-- The path lists of the children of one element are pairwise disjoint and
duplicate-free. -/
theorem allPathsList_nodup (cs : List XMLElement)
    (hnd : ∀ c ∈ cs, ∀ p, (allPaths c p).Nodup)
    (hpre : ∀ c ∈ cs, ∀ p q, q ∈ allPaths c p → p <+: q) :
    ∀ p i, (allPathsList cs p i).Nodup := by
  induction cs with
  | nil => intro p i; simp [allPathsList]
  | cons c cs ih =>
    intro p i
    rw [allPathsList]
    refine List.Nodup.append (hnd c (List.mem_cons_self c cs) (p ++ [i]))
      (ih (fun x hx => hnd x (List.mem_cons_of_mem c hx))
          (fun x hx => hpre x (List.mem_cons_of_mem c hx)) p (i + 1)) ?_
    intro q hql hqr
    have h1 : (p ++ [i]) <+: q := hpre c (List.mem_cons_self c cs) (p ++ [i]) q hql
    obtain ⟨j, hij, h2⟩ :=
      allPathsList_prefix cs (fun x hx => hpre x (List.mem_cons_of_mem c hx)) p (i + 1) q hqr
    have heq : p ++ [i] = p ++ [j] := prefix_eq_of_length h1 h2 (by simp)
    have : i = j := by simpa using List.append_cancel_left heq
    omega

/-- All sibling-index paths of a tree are distinct. -/
theorem allPaths_nodup : ∀ (e : XMLElement) (p : List Nat), (allPaths e p).Nodup := by
  intro e
  induction e using XMLElement.strongInd with
  | _ tag attrib children ih =>
    intro p
    rw [allPaths]
    refine List.nodup_cons.mpr ⟨?_, ?_⟩
    · intro hp
      obtain ⟨j, _, hpre⟩ :=
        allPathsList_prefix children (fun c hc => allPaths_prefix c) p 0 p hp
      have := hpre.length_le
      simp at this
    · exact allPathsList_nodup children ih
        (fun c hc => allPaths_prefix c) p 0

/-- C3: for every well-formed element tree and window size whose parse
succeeds, the parsed tree has exactly one node per source element, the root
key is `"0"`, every node key is the dash-joined sequence of zero-based
sibling indices on the path from the root, and all keys in the tree are
pairwise distinct. -/
theorem parse_tree_node_keys (root : XMLElement) (w : WindowSize) (t : Node)
    (h : parse_xml root w = .ok t) :
    countNodes t = countElems root ∧
    t.key = "0" ∧
    keysMatchPath t [0] = true ∧
    (collectKeys t).Nodup := by
  have hk := parse_keys w root [0] t h
  refine ⟨parse_count w root [0] t h, ?_, hk, ?_⟩
  · cases t with
    | mk k name bds props cs =>
      rw [keysMatchPath, Bool.and_eq_true, beq_iff_eq] at hk
      exact hk.1
  · rw [parse_collect w root [0] t h]
    exact (allPaths_nodup root [0]).map dashJoin_injective

/-- Witness for C3: a three-element tree whose parse succeeds. -/
theorem parse_tree_node_keys_witness :
    countNodes (.mk "0" "hierarchy" none []
      [.mk "0-0" "node" none [] [], .mk "0-1" "C" none [("class", "C")] []]) =
      countElems (.mk "hierarchy" []
        [.mk "node" [] [], .mk "node" [("class", "C")] []]) ∧
    (Node.mk "0" "hierarchy" none []
      [.mk "0-0" "node" none [] [], .mk "0-1" "C" none [("class", "C")] []]).key = "0" ∧
    keysMatchPath (.mk "0" "hierarchy" none []
      [.mk "0-0" "node" none [] [], .mk "0-1" "C" none [("class", "C")] []]) [0] = true ∧
    (collectKeys (.mk "0" "hierarchy" none []
      [.mk "0-0" "node" none [] [], .mk "0-1" "C" none [("class", "C")] []])).Nodup :=
  parse_tree_node_keys
    (.mk "hierarchy" [] [.mk "node" [] [], .mk "node" [("class", "C")] []])
    ⟨1, 1⟩ _ rfl

end UiautoDev
